import Mathlib

/-!
Verification of the dividend-rotation engine in
`scripts/dividend_rotation_v4_real_cli_plan.py`.

The development shallowly embeds the algorithmic core of the script:
trading-day shifting (`shift_trading_day_with_calendar`), candidate scoring
(`normalize`, `score_S`, the scored-candidate pipeline of
`build_scored_candidates`), the screener fallback (`screener_etfs`),
the historical rotation simulator (`simulate_rotation`), the forward-plan
builder (`build_forward_plan`), and the HTTP retry loop (`_get`).

Modelling conventions:
* dates are integers (days), Python `float` money/price arithmetic is modelled
  over `ℚ` (so `0.98` is `98/100`, `1e-9` is `1/1000000000`);
* Python's stable `sorted` is modelled by `List.insertionSort`, which is
  stable; pandas `sort_values(ascending=False)` computes a stable ascending
  argsort of the key and then reverses the whole indexer, which is modelled
  by reversing the stable ascending sort;
* fallible operations return `Option`/`Except`.
-/

namespace DivRotation

/-! ## Trading-day arithmetic (source lines 119-136) -/

/-- Model of `dts = sorted(trading_calendar)` inside
`shift_trading_day_with_calendar`. -/
def sorted_calendar (trading_calendar : List ℤ) : List ℤ :=
  List.insertionSort (· ≤ ·) trading_calendar

/-- Embedding of `shift_trading_day_with_calendar(ref_date, offset,
trading_calendar)`: sort the calendar, take the most recent calendar date
`<= ref_date` as base (via the last element of the filtered sorted list),
look up its first index, and move `offset` positions; out-of-range targets
and a missing base give `None`. -/
def shift_trading_day_with_calendar (ref_date : ℤ) (offset : ℤ)
    (trading_calendar : List ℤ) : Option ℤ :=
  if trading_calendar = [] then none
  else
    match ((sorted_calendar trading_calendar).filter
        (fun d => d ≤ ref_date)).getLast? with
    | none => none
    | some base =>
      match (sorted_calendar trading_calendar).indexOf? base with
      | none => none
      | some idx =>
        if (idx : ℤ) + offset < 0 ∨
            (((sorted_calendar trading_calendar).length : ℤ) ≤ (idx : ℤ) + offset)
        then none
        else some ((sorted_calendar trading_calendar).getD ((idx : ℤ) + offset).toNat 0)

/-! ### Helper lemmas about sorted lists and indices -/

theorem mem_of_getLast?_eq_some {α : Type} {l : List α} {a : α}
    (h : l.getLast? = some a) : a ∈ l := by
  obtain ⟨ys, rfl⟩ := List.getLast?_eq_some_iff.mp h
  simp

theorem le_of_mem_of_sorted_getLast? {l : List ℤ}
    (hs : l.Sorted (· ≤ ·)) {b : ℤ} (h : l.getLast? = some b) :
    ∀ c ∈ l, c ≤ b := by
  obtain ⟨ys, rfl⟩ := List.getLast?_eq_some_iff.mp h
  intro c hc
  rcases List.mem_append.mp hc with h1 | h2
  · exact (List.pairwise_append.mp hs).2.2 c h1 b (by simp)
  · simp only [List.mem_singleton] at h2
    exact le_of_eq h2

theorem indexOf?_some_spec {l : List ℤ} {b : ℤ} {i : ℕ}
    (h : l.indexOf? b = some i) : i < l.length ∧ l.getD i 0 = b := by
  induction l generalizing i with
  | nil => simp [List.indexOf?_nil] at h
  | cons x xs ih =>
    rw [List.indexOf?_cons] at h
    by_cases hx : (x == b)
    · rw [if_pos hx] at h
      obtain rfl : (0 : ℕ) = i := Option.some.inj h
      refine ⟨Nat.succ_pos _, ?_⟩
      simpa using (beq_iff_eq.mp hx)
    · rw [if_neg hx] at h
      cases hxs : xs.indexOf? b with
      | none => rw [hxs] at h; simp at h
      | some j =>
        rw [hxs] at h
        obtain rfl : j + 1 = i := by simpa using h
        obtain ⟨hj, hget⟩ := ih hxs
        exact ⟨by simpa using Nat.succ_lt_succ hj, by simpa using hget⟩

theorem indexOf?_isSome_of_mem {l : List ℤ} {b : ℤ} (h : b ∈ l) :
    ∃ i, l.indexOf? b = some i := by
  induction l with
  | nil => simp at h
  | cons x xs ih =>
    by_cases hx : (x == b)
    · exact ⟨0, by rw [List.indexOf?_cons, if_pos hx]⟩
    · have hb : b ∈ xs := by
        rcases List.mem_cons.mp h with h1 | h1
        · exact absurd (beq_iff_eq.mpr h1.symm) hx
        · exact h1
      obtain ⟨j, hj⟩ := ih hb
      exact ⟨j + 1, by rw [List.indexOf?_cons, if_neg hx, hj]; rfl⟩

theorem getD_mem {l : List ℤ} {i : ℕ} (h : i < l.length) : l.getD i 0 ∈ l := by
  rw [List.getD_eq_getElem l 0 h]
  exact List.getElem_mem h

theorem sorted_getD_le_getD {l : List ℤ} (hs : l.Sorted (· ≤ ·)) {i j : ℕ}
    (hij : i ≤ j) (hj : j < l.length) : l.getD i 0 ≤ l.getD j 0 := by
  have hi : i < l.length := lt_of_le_of_lt hij hj
  rw [List.getD_eq_getElem l 0 hi, List.getD_eq_getElem l 0 hj]
  have := hs.rel_get_of_le (a := ⟨i, hi⟩) (b := ⟨j, hj⟩) hij
  simpa using this

theorem sorted_nodup_getD_lt {l : List ℤ} (hs : l.Sorted (· ≤ ·))
    (hnd : l.Nodup) {i j : ℕ} (hij : i < j) (hj : j < l.length) :
    l.getD i 0 < l.getD j 0 := by
  have hi : i < l.length := lt_trans hij hj
  rw [List.getD_eq_getElem l 0 hi, List.getD_eq_getElem l 0 hj]
  have := (hs.lt_of_le hnd).rel_get_of_lt (a := ⟨i, hi⟩) (b := ⟨j, hj⟩) hij
  simpa using this

/-! ### Structural facts about `shift_trading_day_with_calendar` -/

theorem sorted_calendar_sorted (cal : List ℤ) :
    (sorted_calendar cal).Sorted (· ≤ ·) :=
  List.sorted_insertionSort (· ≤ ·) cal

theorem sorted_calendar_perm (cal : List ℤ) :
    (sorted_calendar cal).Perm cal :=
  List.perm_insertionSort (· ≤ ·) cal

/-- Characterisation of the base date: it is a calendar member, is `≤ ref`,
and dominates every calendar member that is `≤ ref`. -/
theorem base_spec {ref : ℤ} {cal : List ℤ} {base : ℤ}
    (hlast : ((sorted_calendar cal).filter (fun d => d ≤ ref)).getLast? = some base) :
    base ∈ cal ∧ base ≤ ref ∧ ∀ c ∈ cal, c ≤ ref → c ≤ base := by
  have hmemf := mem_of_getLast?_eq_some hlast
  have hmem : base ∈ sorted_calendar cal := (List.mem_filter.mp hmemf).1
  have hle : base ≤ ref := by
    have := (List.mem_filter.mp hmemf).2
    simpa using this
  refine ⟨(sorted_calendar_perm cal).subset hmem, hle, ?_⟩
  intro c hc hcle
  have hcs : c ∈ sorted_calendar cal := (sorted_calendar_perm cal).mem_iff.mpr hc
  have hcf : c ∈ (sorted_calendar cal).filter (fun d => d ≤ ref) :=
    List.mem_filter.mpr ⟨hcs, by simpa using hcle⟩
  exact le_of_mem_of_sorted_getLast?
    ((sorted_calendar_sorted cal).filter _) hlast c hcf

/-- Forward evaluation of the shift once the base and its index are known. -/
theorem shift_eval {ref off : ℤ} {cal : List ℤ} (hne : ¬ cal = [])
    {base : ℤ} {idx : ℕ}
    (hlast : ((sorted_calendar cal).filter (fun d => d ≤ ref)).getLast? = some base)
    (hidx : (sorted_calendar cal).indexOf? base = some idx) :
    shift_trading_day_with_calendar ref off cal =
      if (idx : ℤ) + off < 0 ∨ (((sorted_calendar cal).length : ℤ) ≤ (idx : ℤ) + off)
      then none
      else some ((sorted_calendar cal).getD ((idx : ℤ) + off).toNat 0) := by
  unfold shift_trading_day_with_calendar
  rw [if_neg hne]
  split
  · next heq => rw [heq] at hlast; exact absurd hlast (by simp)
  · next b heq =>
    rw [heq] at hlast
    obtain rfl : b = base := Option.some.inj hlast
    split
    · next hidx2 => rw [hidx2] at hidx; exact absurd hidx (by simp)
    · next i hidx2 =>
      rw [hidx2] at hidx
      obtain rfl : i = idx := Option.some.inj hidx
      rfl

/-- If no calendar date is `≤ ref`, the shift returns `none`. -/
theorem shift_eq_none_of_no_base {ref off : ℤ} {cal : List ℤ}
    (hlast : ((sorted_calendar cal).filter (fun d => d ≤ ref)).getLast? = none) :
    shift_trading_day_with_calendar ref off cal = none := by
  unfold shift_trading_day_with_calendar
  by_cases hne : cal = []
  · rw [if_pos hne]
  · rw [if_neg hne, hlast]

/-- Elimination principle for a successful shift. -/
theorem shift_some_spec {ref off : ℤ} {cal : List ℤ} {x : ℤ}
    (h : shift_trading_day_with_calendar ref off cal = some x) :
    ∃ base idx,
      ((sorted_calendar cal).filter (fun d => d ≤ ref)).getLast? = some base ∧
      (sorted_calendar cal).indexOf? base = some idx ∧
      0 ≤ (idx : ℤ) + off ∧ (idx : ℤ) + off < ((sorted_calendar cal).length : ℤ) ∧
      x = (sorted_calendar cal).getD ((idx : ℤ) + off).toNat 0 := by
  unfold shift_trading_day_with_calendar at h
  by_cases hne : cal = []
  · rw [if_pos hne] at h; exact absurd h (by simp)
  · rw [if_neg hne] at h
    split at h
    · exact absurd h (by simp)
    · next base hlast =>
      split at h
      · exact absurd h (by simp)
      · next idx hidx =>
        split at h
        · exact absurd h (by simp)
        · next hguard =>
          push_neg at hguard
          exact ⟨base, idx, hlast, hidx, hguard.1, hguard.2, (Option.some.inj h).symm⟩

/-- C4: with offset 0 the shift returns the reference date itself when it is a
calendar member, otherwise the most recent calendar date before it; when no
calendar date is `≤` the reference date, or when the base index plus the
offset leaves the calendar, the result is `none` (a value, not an exception). -/
theorem c4_shift_zero_offset (cal : List ℤ) (d : ℤ) (hne : cal ≠ []) :
    (d ∈ cal → shift_trading_day_with_calendar d 0 cal = some d)
    ∧ ((∃ c ∈ cal, c ≤ d) → (shift_trading_day_with_calendar d 0 cal).isSome = true)
    ∧ (∀ b, shift_trading_day_with_calendar d 0 cal = some b →
        b ∈ cal ∧ b ≤ d ∧ ∀ c ∈ cal, c ≤ d → c ≤ b)
    ∧ ((∀ c ∈ cal, ¬ c ≤ d) → shift_trading_day_with_calendar d 0 cal = none)
    ∧ (∀ off : ℤ, ((cal.length : ℤ) ≤ off ∨ off ≤ -(cal.length : ℤ)) →
        shift_trading_day_with_calendar d off cal = none)
    ∧ (∀ off : ℤ, ∀ base idx,
        ((sorted_calendar cal).filter (fun x => x ≤ d)).getLast? = some base →
        (sorted_calendar cal).indexOf? base = some idx →
        ((idx : ℤ) + off < 0 ∨ ((cal.length : ℤ) ≤ (idx : ℤ) + off)) →
        shift_trading_day_with_calendar d off cal = none) := by
  have hperm := sorted_calendar_perm cal
  have hlen : (sorted_calendar cal).length = cal.length := hperm.length_eq
  have hbase : ∀ off : ℤ, (∃ c ∈ cal, c ≤ d) →
      ∃ base idx, ((sorted_calendar cal).filter (fun x => x ≤ d)).getLast? = some base ∧
        (sorted_calendar cal).indexOf? base = some idx ∧ idx < cal.length ∧
        (sorted_calendar cal).getD idx 0 = base ∧
        shift_trading_day_with_calendar d off cal =
          (if (idx : ℤ) + off < 0 ∨ ((cal.length : ℤ) ≤ (idx : ℤ) + off) then none
           else some ((sorted_calendar cal).getD ((idx : ℤ) + off).toNat 0)) := by
    intro off hex
    obtain ⟨c, hc, hcd⟩ := hex
    have hcf : c ∈ (sorted_calendar cal).filter (fun x => x ≤ d) :=
      List.mem_filter.mpr ⟨hperm.mem_iff.mpr hc, by simpa using hcd⟩
    have hFne : (sorted_calendar cal).filter (fun x => x ≤ d) ≠ [] := by
      intro hF; rw [hF] at hcf; simp at hcf
    cases hlast : ((sorted_calendar cal).filter (fun x => x ≤ d)).getLast? with
    | none => exact absurd (List.getLast?_eq_none_iff.mp hlast) hFne
    | some base =>
      obtain ⟨idx, hidx⟩ := indexOf?_isSome_of_mem
        ((List.mem_filter.mp (mem_of_getLast?_eq_some hlast)).1)
      obtain ⟨hilt, higet⟩ := indexOf?_some_spec hidx
      rw [hlen] at hilt
      refine ⟨base, idx, rfl, hidx, hilt, higet, ?_⟩
      rw [shift_eval hne hlast hidx, hlen]
  refine ⟨?_, ?_, ?_, ?_, ?_, ?_⟩
  · intro hd
    obtain ⟨base, idx, hlast, hidx, hilt, higet, heval⟩ := hbase 0 ⟨d, hd, le_refl d⟩
    obtain ⟨hbmem, hbd, hmax⟩ := base_spec hlast
    have hdb : d ≤ base := hmax d hd (le_refl d)
    have ht : ((idx : ℤ) + 0).toNat = idx := by omega
    rw [heval, if_neg (by omega), ht, higet, le_antisymm hbd hdb]
  · intro hex
    obtain ⟨base, idx, hlast, hidx, hilt, higet, heval⟩ := hbase 0 hex
    rw [heval, if_neg (by omega)]
    rfl
  · intro b hb
    obtain ⟨base, idx, hlast, hidx, h0, hl, hx⟩ := shift_some_spec hb
    obtain ⟨hilt, higet⟩ := indexOf?_some_spec hidx
    have ht : ((idx : ℤ) + 0).toNat = idx := by omega
    rw [ht, higet] at hx
    subst hx
    exact base_spec hlast
  · intro hno
    apply shift_eq_none_of_no_base
    rw [List.getLast?_eq_none_iff, List.filter_eq_nil_iff]
    intro a ha
    simpa using hno a (hperm.subset ha)
  · intro off hoff
    by_cases hex : ∃ c ∈ cal, c ≤ d
    · obtain ⟨base, idx, hlast, hidx, hilt, higet, heval⟩ := hbase off hex
      rw [heval, if_pos (by omega)]
    · push_neg at hex
      apply shift_eq_none_of_no_base
      rw [List.getLast?_eq_none_iff, List.filter_eq_nil_iff]
      intro a ha
      simpa using not_le.mpr (hex a (hperm.subset ha))
  · intro off base idx hlast hidx hout
    rw [shift_eval hne hlast hidx, hlen, if_pos hout]

/-- Witness for C4 at the concrete calendar `[0, 2]`. -/
theorem c4_shift_zero_offset_witness :
    shift_trading_day_with_calendar 2 0 [0, 2] = some 2
    ∧ (shift_trading_day_with_calendar 1 0 [0, 2]).isSome = true
    ∧ shift_trading_day_with_calendar 1 5 [0, 2] = none :=
  ⟨(c4_shift_zero_offset [0, 2] 2 (by decide)).1 (by decide),
   (c4_shift_zero_offset [0, 2] 1 (by decide)).2.1 ⟨0, by decide, by decide⟩,
   (c4_shift_zero_offset [0, 2] 1 (by decide)).2.2.2.2.1 5 (by decide)⟩

/-! ### Order facts about resolved shifts -/

theorem shift_some_mem {ref off : ℤ} {cal : List ℤ} {x : ℤ}
    (h : shift_trading_day_with_calendar ref off cal = some x) : x ∈ cal := by
  obtain ⟨base, idx, hlast, hidx, h0, hl, rfl⟩ := shift_some_spec h
  exact (sorted_calendar_perm cal).subset (getD_mem (by omega))

theorem shift_le_ref_of_nonpos {ref off : ℤ} {cal : List ℤ} {x : ℤ}
    (hoff : off ≤ 0) (h : shift_trading_day_with_calendar ref off cal = some x) :
    x ≤ ref := by
  obtain ⟨base, idx, hlast, hidx, h0, hl, rfl⟩ := shift_some_spec h
  obtain ⟨hilt, higet⟩ := indexOf?_some_spec hidx
  obtain ⟨hbmem, hbref, hmax⟩ := base_spec hlast
  have hmono := sorted_getD_le_getD (sorted_calendar_sorted cal)
    (i := ((idx : ℤ) + off).toNat) (j := idx) (by omega) hilt
  rw [higet] at hmono
  exact hmono.trans hbref

theorem ref_le_shift_of_mem_nonneg {ref off : ℤ} {cal : List ℤ} {x : ℤ}
    (href : ref ∈ cal) (hoff : 0 ≤ off)
    (h : shift_trading_day_with_calendar ref off cal = some x) : ref ≤ x := by
  obtain ⟨base, idx, hlast, hidx, h0, hl, rfl⟩ := shift_some_spec h
  obtain ⟨hilt, higet⟩ := indexOf?_some_spec hidx
  obtain ⟨hbmem, hbref, hmax⟩ := base_spec hlast
  have hbase_eq : base = ref := le_antisymm hbref (hmax ref href (le_refl ref))
  have hmono := sorted_getD_le_getD (sorted_calendar_sorted cal)
    (i := idx) (j := ((idx : ℤ) + off).toNat) (by omega) (by omega)
  rw [higet, hbase_eq] at hmono
  exact hmono

theorem ref_lt_shift_of_pos_nodup {ref off : ℤ} {cal : List ℤ} {x : ℤ}
    (hnd : cal.Nodup) (hoff : 1 ≤ off)
    (h : shift_trading_day_with_calendar ref off cal = some x) : ref < x := by
  obtain ⟨base, idx, hlast, hidx, h0, hl, rfl⟩ := shift_some_spec h
  obtain ⟨hilt, higet⟩ := indexOf?_some_spec hidx
  obtain ⟨hbmem, hbref, hmax⟩ := base_spec hlast
  have hnd2 : (sorted_calendar cal).Nodup :=
    ((sorted_calendar_perm cal).nodup_iff).mpr hnd
  have hlt := sorted_nodup_getD_lt (sorted_calendar_sorted cal) hnd2
    (i := idx) (j := ((idx : ℤ) + off).toNat) (by omega) (by omega)
  rw [higet] at hlt
  by_contra hcon
  push_neg at hcon
  have hxmem : (sorted_calendar cal).getD ((idx : ℤ) + off).toNat 0 ∈ cal :=
    (sorted_calendar_perm cal).subset (getD_mem (by omega))
  have := hmax _ hxmem hcon
  omega

/-! ## Forward plan builder (`build_forward_plan`, source lines 420-508) -/

/-- One upcoming dividend event row as consumed by the planning loop
(the merged columns of the `cal` DataFrame). -/
structure DivEvent where
  ticker : String
  name : String
  ex_date : ℤ
  value : ℚ
  close_price : ℚ
  currency : String
deriving Repr, DecidableEq, Inhabited

/-- One output row of the forward plan. -/
structure PlannedTrade where
  ticker : String
  name : String
  ex_date : ℤ
  amount : ℚ
  currency : String
  plan_buy_date : Option ℤ
  plan_sell_date : Option ℤ
  estimated_pct_gain : ℚ
  note : String
deriving Repr, DecidableEq, Inhabited

/-- The key of `cal.sort_values(["ex_date", "ticker"])`. -/
def event_le (a b : DivEvent) : Prop :=
  a.ex_date < b.ex_date ∨ (a.ex_date = b.ex_date ∧ a.ticker ≤ b.ticker)

instance : DecidableRel event_le := fun a b => by
  unfold event_le; infer_instance

/-- Body of the planning loop: compute the two shifted dates, attach the
note when either is missing, and the estimated percentage gain. -/
def plan_of_event (trading_cal : List ℤ) (hold_pre hold_post : ℤ)
    (r : DivEvent) : PlannedTrade :=
  let buy_d := shift_trading_day_with_calendar r.ex_date (-hold_pre) trading_cal
  let sell_d := shift_trading_day_with_calendar r.ex_date hold_post trading_cal
  let note := if buy_d = none ∨ sell_d = none then "无法计算买/卖日期" else ""
  let estimated_gain : ℚ :=
    if 0 < r.close_price ∧ 0 < r.value then r.value / r.close_price * 100 else 0
  { ticker := r.ticker, name := r.name, ex_date := r.ex_date, amount := r.value,
    currency := r.currency, plan_buy_date := buy_d, plan_sell_date := sell_d,
    estimated_pct_gain := estimated_gain, note := note }

/-- Embedding of the planning loop of `build_forward_plan`: sort the event
rows by (ex-date, ticker) and emit one `PlannedTrade` per row. -/
def build_forward_plan (events : List DivEvent) (trading_cal : List ℤ)
    (hold_pre hold_post : ℤ) : List PlannedTrade :=
  (List.insertionSort event_le events).map
    (plan_of_event trading_cal hold_pre hold_post)

/-- C8: the forward plan emits exactly one row per processed dividend event,
and any row whose buy or sell date failed to resolve carries a non-empty
explanatory note — rows are never silently dropped. -/
theorem c8_plan_rows_never_dropped (events : List DivEvent) (cal : List ℤ)
    (hold_pre hold_post : ℤ) :
    (build_forward_plan events cal hold_pre hold_post).length = events.length
    ∧ ∀ p ∈ build_forward_plan events cal hold_pre hold_post,
        (p.plan_buy_date = none ∨ p.plan_sell_date = none) → p.note ≠ "" := by
  constructor
  · unfold build_forward_plan
    rw [List.length_map]
    exact (List.perm_insertionSort event_le events).length_eq
  · intro p hp hnull
    obtain ⟨r, hr, rfl⟩ := List.mem_map.mp hp
    simp only [plan_of_event] at hnull ⊢
    rw [if_pos hnull]
    decide

/-- Sample dividend event used to exercise the plan builder. -/
def c8_event : DivEvent :=
  { ticker := "SCHD.US", name := "Schwab US Dividend Equity ETF",
    ex_date := 1, value := 0, close_price := 0, currency := "USD" }

/-- Witness for C8: with an empty calendar the single plan row survives with
a non-empty note. -/
theorem c8_plan_rows_never_dropped_witness :
    (build_forward_plan [c8_event] [] 0 0).length = 1
    ∧ (plan_of_event [] 0 0 c8_event).note ≠ "" :=
  ⟨(c8_plan_rows_never_dropped [c8_event] [] 0 0).1,
   (c8_plan_rows_never_dropped [c8_event] [] 0 0).2
     (plan_of_event [] 0 0 c8_event)
     (by exact List.mem_singleton_self _)
     (Or.inl rfl)⟩

/-- C5 as stated is false: with `hold_post = 0` and an ex-date that is not a
trading day, the planned sell date falls strictly before the ex-date.
Calendar `[0]`, ex-date `1`, `hold_pre = hold_post = 0` give buy = sell = 0,
and `ex_date ≤ plan_sell_date` fails. -/
theorem c5_counterexample :
    (build_forward_plan [c8_event] [0] 0 0).map
        (fun p => (p.ex_date, p.plan_buy_date, p.plan_sell_date))
      = [(1, some 0, some 0)]
    ∧ ¬ ((1 : ℤ) ≤ 0) := by
  constructor
  · rfl
  · decide

/-- C5 amended: over a duplicate-free trading calendar and non-negative hold
offsets, every resolved planned buy date is a calendar member `≤` the
ex-date, and every resolved planned sell date is a calendar member that is
`≥` the ex-date provided `hold_post ≥ 1` or the ex-date is itself a trading
day (with `hold_post = 0` and an ex-date outside the calendar the sell date
falls before the ex-date). -/
theorem c5_plan_date_order (events : List DivEvent) (cal : List ℤ)
    (hold_pre hold_post : ℤ) (hnd : cal.Nodup)
    (hpre : 0 ≤ hold_pre) (hpost : 0 ≤ hold_post) :
    ∀ p ∈ build_forward_plan events cal hold_pre hold_post,
      (∀ b, p.plan_buy_date = some b → b ∈ cal ∧ b ≤ p.ex_date)
      ∧ (∀ s, p.plan_sell_date = some s → s ∈ cal ∧
          ((1 ≤ hold_post ∨ p.ex_date ∈ cal) → p.ex_date ≤ s)) := by
  intro p hp
  obtain ⟨r, hr, rfl⟩ := List.mem_map.mp hp
  simp only [plan_of_event]
  constructor
  · intro b hb
    exact ⟨shift_some_mem hb, shift_le_ref_of_nonpos (by omega) hb⟩
  · intro s hs
    refine ⟨shift_some_mem hs, ?_⟩
    rintro (h1 | h2)
    · exact (ref_lt_shift_of_pos_nodup hnd h1 hs).le
    · exact ref_le_shift_of_mem_nonneg h2 hpost hs

/-- Event with ex-date 1, used for the C5 witness. -/
def c5_event : DivEvent :=
  { ticker := "VYM.US", name := "Vanguard High Dividend Yield ETF",
    ex_date := 1, value := 0, close_price := 0, currency := "USD" }

/-- Witness for C5 amended on the calendar `[0, 1, 2]` with
`hold_pre = hold_post = 1`. -/
theorem c5_plan_date_order_witness :
    ((0 : ℤ) ∈ ([0, 1, 2] : List ℤ) ∧ (0 : ℤ) ≤ (1 : ℤ))
    ∧ ((2 : ℤ) ∈ ([0, 1, 2] : List ℤ) ∧ (1 : ℤ) ≤ (2 : ℤ)) := by
  have h := c5_plan_date_order [c5_event] [0, 1, 2] 1 1 (by decide) (by decide)
    (by decide) (plan_of_event [0, 1, 2] 1 1 c5_event)
    (by exact List.mem_singleton_self _)
  have hb := h.1 0 rfl
  have hs := h.2 2 rfl
  exact ⟨⟨hb.1, hb.2⟩, ⟨hs.1, hs.2 (Or.inl (by decide))⟩⟩

/-! ## Candidate scoring (`normalize` and `build_scored_candidates`,
source lines 101-107 and 264-307) -/

/-- Per-element value of `normalize(series)` given the whole series as
context: on a nonempty series with `max = min` every element maps to `1`
(`np.ones_like`), otherwise to `(v - min) / (max - min)`. -/
def normVal (s : List ℚ) (v : ℚ) : ℚ :=
  match s with
  | [] => v
  | x :: xs =>
    let smin := xs.foldl min x
    let smax := xs.foldl max x
    if smax - smin = 0 then 1 else (v - smin) / (smax - smin)

/-- Embedding of `normalize(series)`: the empty series maps to itself,
otherwise each element is min-max normalized (all ones when `max = min`). -/
def normalize (s : List ℚ) : List ℚ := s.map (normVal s)

/-- Embedding of the inner `score_S(exd)`: proximity of the next ex-date,
`0` when unknown, in the past, or beyond the lookahead window, otherwise
`max(0, 1 - days / (lookahead or 1))`. -/
def score_S (today : ℤ) (ex_lookahead_days : ℤ) (exd : Option ℤ) : ℚ :=
  match exd with
  | none => 0
  | some d =>
    let days := d - today
    if days < 0 ∨ ex_lookahead_days < days then 0
    else max 0 (1 - (days : ℚ) /
      (((if ex_lookahead_days = 0 then 1 else ex_lookahead_days) : ℤ) : ℚ))

/-- One screened candidate row as consumed by the scoring block
(`dividend_yield`, `avgvol`, merged `ex_date`). -/
structure Cand where
  ticker : String
  dividend_yield : ℚ
  avgvol : ℚ
  ex_date : Option ℤ
deriving Repr, DecidableEq, Inhabited

/-- A candidate with its normalized sub-scores and composite score. -/
structure ScoredRow where
  cand : Cand
  Y_n : ℚ
  L_n : ℚ
  S_n : ℚ
  score : ℚ
deriving Repr, DecidableEq, Inhabited

/-- Embedding of the column computations of `build_scored_candidates`
(source lines 293-304): the three normalized columns and the composite
`Score` with weights renormalized by `w_sum = max(1e-9, wY + wL + wS)`. -/
def scored_rows (today ex_lookahead_days : ℤ) (wY wL wS : ℚ)
    (cs : List Cand) : List ScoredRow :=
  let Ys := cs.map (fun c => c.dividend_yield)
  let Ls := cs.map (fun c => c.avgvol)
  let Ss := cs.map (fun c => score_S today ex_lookahead_days c.ex_date)
  let w_sum := max (1 / 1000000000) (wY + wL + wS)
  cs.map (fun c =>
    let yn := normVal Ys c.dividend_yield
    let ln := normVal Ls c.avgvol
    let sn := normVal Ss (score_S today ex_lookahead_days c.ex_date)
    { cand := c, Y_n := yn, L_n := ln, S_n := sn,
      score := (wY / w_sum) * yn + (wL / w_sum) * ln + (wS / w_sum) * sn })

/-- The normalized proximity column of `scored_rows` is exactly
`normalize` applied to the raw `S` column. -/
theorem scored_rows_Sn_col (today la : ℤ) (wY wL wS : ℚ) (cs : List Cand) :
    (scored_rows today la wY wL wS cs).map (fun r => r.S_n)
      = normalize (cs.map (fun c => score_S today la c.ex_date)) := by
  unfold scored_rows normalize
  simp only [List.map_map]
  rfl

/-- Sort key of `sort_values("Score", ...)`. -/
def score_le (a b : ScoredRow) : Prop := a.score ≤ b.score

instance : DecidableRel score_le := fun a b => by
  unfold score_le; infer_instance

instance : IsTotal ScoredRow score_le := ⟨fun a b => le_total a.score b.score⟩

instance : IsTrans ScoredRow score_le := ⟨fun _ _ _ h1 h2 => le_trans h1 h2⟩

/-- Model of pandas `sort_values("Score", ascending=False)`: pandas argsorts
the key ascending and reverses the whole indexer, so with a stable ascending
sort the row order is the reverse of the stable ascending order. -/
def sort_values_score_desc (rows : List ScoredRow) : List ScoredRow :=
  (List.insertionSort score_le rows).reverse

/-- Embedding of the ranking tail of `build_scored_candidates`
(source line 305): sort by composite score descending and keep the top K. -/
def build_scored_candidates (today ex_lookahead_days : ℤ) (wY wL wS : ℚ)
    (topk : ℕ) (cs : List Cand) : List ScoredRow :=
  (sort_values_score_desc
    (scored_rows today ex_lookahead_days wY wL wS cs)).take topk

/-- Candidate with a low yield and no upcoming ex-date. -/
def c1_a : Cand :=
  { ticker := "A.US", dividend_yield := 1/100, avgvol := 100, ex_date := none }

/-- Candidate with a higher yield and no upcoming ex-date. -/
def c1_b : Cand :=
  { ticker := "B.US", dividend_yield := 3/100, avgvol := 100, ex_date := none }

/-- Spec-side definition (the spec's words, not the source): with all-zero
weights the spec prescribes equal weights of 1/3 each, i.e. composite scores
equal to the unweighted mean of the three sub-scores. -/
def equal_weight_mean_scores (today la : ℤ) (cs : List Cand) : List ℚ :=
  (scored_rows today la 0 0 0 cs).map (fun r => (r.Y_n + r.L_n + r.S_n) / 3)

/-- C1 as stated is false: with all-zero weights the code clamps
`w_sum` to `1e-9` and every composite score is `0`, whereas the unweighted
means of the sub-scores here are `2/3` and `1`. -/
theorem c1_counterexample :
    (scored_rows 0 90 0 0 0 [c1_a, c1_b]).map (fun r => r.score) = [0, 0]
    ∧ equal_weight_mean_scores 0 90 [c1_a, c1_b] = [2/3, 1]
    ∧ ¬ (([0, 0] : List ℚ) = [2/3, 1]) := by
  refine ⟨?_, ?_, ?_⟩
  · simp [scored_rows, zero_div, zero_mul, add_zero]
  · norm_num [equal_weight_mean_scores, scored_rows, normVal, score_S,
      c1_a, c1_b, min_def, max_def]
  · norm_num

/-- C1 amended: all-zero weights make every normalized weight `0 / 1e-9 = 0`
and hence every composite score `0` (no division error, but not the
equal-weight mean of the sub-scores). -/
theorem c1_all_zero_weights_zero_scores (today la : ℤ) (cs : List Cand) :
    (scored_rows today la 0 0 0 cs).map (fun r => r.score)
      = List.replicate cs.length 0 := by
  unfold scored_rows
  simp [List.map_map, zero_div, zero_mul, add_zero, Function.comp_def,
    List.map_const']

/-- First of two candidates with identical attributes (equal scores). -/
def c6_a : Cand :=
  { ticker := "A.US", dividend_yield := 3/100, avgvol := 100, ex_date := none }

/-- Second of two candidates with identical attributes (equal scores). -/
def c6_b : Cand :=
  { ticker := "B.US", dividend_yield := 3/100, avgvol := 100, ex_date := none }

/-- C6 as stated is false: two candidates with equal composite scores come
out in REVERSED input order (pandas reverses a stable ascending argsort for
a descending sort), not in input order as a stable descending sort would. -/
theorem c6_counterexample :
    (build_scored_candidates 0 90 (2/5) (1/4) (7/20) 10 [c6_a, c6_b]).map
        (fun r => r.cand.ticker) = ["B.US", "A.US"]
    ∧ ¬ ((["B.US", "A.US"] : List String) = ["A.US", "B.US"]) := by
  constructor
  · norm_num [build_scored_candidates, sort_values_score_desc, scored_rows,
      normVal, score_S, c6_a, c6_b, List.insertionSort, List.orderedInsert,
      score_le, min_def, max_def]
  · decide

/-- C6 amended: the ranked output is non-increasing in composite score and
the full sorted list is a permutation of the scored input (hence the same
rows appear, deterministically); equal-score ties, however, appear in
reversed input order, not input order. -/
theorem c6_sorted_descending (today la : ℤ) (wY wL wS : ℚ) (topk : ℕ)
    (cs : List Cand) :
    List.Sorted (fun a b => score_le b a)
      (build_scored_candidates today la wY wL wS topk cs)
    ∧ (sort_values_score_desc (scored_rows today la wY wL wS cs)).Perm
        (scored_rows today la wY wL wS cs) := by
  constructor
  · unfold build_scored_candidates
    apply List.Pairwise.sublist (List.take_sublist _ _)
    unfold sort_values_score_desc
    rw [List.pairwise_reverse]
    exact List.sorted_insertionSort score_le _
  · unfold sort_values_score_desc
    exact (List.reverse_perm _).trans (List.perm_insertionSort score_le _)

theorem foldl_min_of_all_eq {x : ℚ} {xs : List ℚ} (h : ∀ y ∈ xs, y = x) :
    xs.foldl min x = x := by
  induction xs with
  | nil => rfl
  | cons y ys ih =>
    rw [List.foldl_cons, h y (List.mem_cons_self y ys), min_self]
    exact ih (fun z hz => h z (List.mem_cons_of_mem y hz))

theorem foldl_max_of_all_eq {x : ℚ} {xs : List ℚ} (h : ∀ y ∈ xs, y = x) :
    xs.foldl max x = x := by
  induction xs with
  | nil => rfl
  | cons y ys ih =>
    rw [List.foldl_cons, h y (List.mem_cons_self y ys), max_self]
    exact ih (fun z hz => h z (List.mem_cons_of_mem y hz))

/-- On a nonempty constant series, `normalize` returns all ones. -/
theorem normalize_const {s : List ℚ} (hne : s ≠ [])
    (hconst : ∀ x ∈ s, ∀ y ∈ s, x = y) :
    normalize s = List.replicate s.length 1 := by
  cases s with
  | nil => exact absurd rfl hne
  | cons x xs =>
    have hall : ∀ y ∈ xs, y = x := fun y hy =>
      hconst y (List.mem_cons_of_mem x hy) x (List.mem_cons_self x xs)
    have hnv : ∀ v : ℚ, normVal (x :: xs) v = 1 := by
      intro v
      have h1 : normVal (x :: xs) v =
          if xs.foldl max x - xs.foldl min x = 0 then (1 : ℚ)
          else (v - xs.foldl min x) / (xs.foldl max x - xs.foldl min x) := rfl
      rw [h1, foldl_min_of_all_eq hall, foldl_max_of_all_eq hall]
      simp
    unfold normalize
    rw [List.map_congr_left (fun a _ => hnv a)]
    simp [List.map_const', List.replicate_succ]

/-- C9 (implicit behaviour): the proximity sub-score is min-max normalized
across the candidate set before weighting, so when every candidate carries
the same raw proximity (for instance no candidate has an upcoming ex-date)
every candidate receives a proximity component of `1`. -/
theorem c9_proximity_minmax_normalized (today la : ℤ) (wY wL wS : ℚ)
    (cs : List Cand) (hne : cs ≠ [])
    (hconst : ∀ c1 ∈ cs, ∀ c2 ∈ cs,
      score_S today la c1.ex_date = score_S today la c2.ex_date) :
    (scored_rows today la wY wL wS cs).map (fun r => r.S_n)
      = normalize (cs.map (fun c => score_S today la c.ex_date))
    ∧ (scored_rows today la wY wL wS cs).map (fun r => r.S_n)
      = List.replicate cs.length 1 := by
  have hcol := scored_rows_Sn_col today la wY wL wS cs
  refine ⟨hcol, ?_⟩
  rw [hcol, normalize_const (by simpa using hne) ?_, List.length_map]
  intro x hx y hy
  obtain ⟨cx, hcx, rfl⟩ := List.mem_map.mp hx
  obtain ⟨cy, hcy, rfl⟩ := List.mem_map.mp hy
  exact hconst cx hcx cy hcy

/-- Witness for C9: two candidates without upcoming ex-dates both get a
normalized proximity of `1`. -/
theorem c9_proximity_minmax_normalized_witness :
    (scored_rows 0 90 (2/5) (1/4) (7/20) [c1_a, c1_b]).map (fun r => r.S_n)
      = List.replicate 2 1 := by
  have h := (c9_proximity_minmax_normalized 0 90 (2/5) (1/4) (7/20)
    [c1_a, c1_b] (by decide) (by decide)).2
  simpa using h

/-! ## Rotation simulator (`simulate_rotation`, source lines 312-415) -/

/-- One completed round trip of the historical simulator
(the `Trade` dataclass of the source). -/
structure Trade where
  ticker : String
  ex_date : ℤ
  buy_date : ℤ
  sell_date : ℤ
  buy_price : ℚ
  sell_price : ℚ
  shares : ℚ
  dividend_cash : ℚ
  pnl : ℚ
deriving Repr, DecidableEq, Inhabited

/-- Running state of the simulator: cash, trade log, equity-curve points. -/
structure SimState where
  cash : ℚ
  trades : List Trade
  equity_curve : List (ℤ × ℚ)
deriving Repr, DecidableEq, Inhabited

/-- Embedding of `px.loc[px.index.date == d, "adjusted_close"].iloc[-1]`:
the last price row carrying date `d` (`none` when no row matches, which for
dates produced by the calendar shift cannot happen). -/
def lookup_adjusted_close (px : List (ℤ × ℚ)) (d : ℤ) : Option ℚ :=
  ((px.filter (fun p => p.1 = d)).getLast?).map Prod.snd

/-- Embedding of `alloc_cash = max(0.0, cash * alloc_per_event / max(1, topk))`. -/
def alloc_cash_of (cash alloc_per_event : ℚ) (topk : ℤ) : ℚ :=
  max 0 (cash * alloc_per_event / ((max 1 topk : ℤ) : ℚ))

/-- Embedding of `shares = max(1.0, math.floor(alloc_cash / buy_px))`. -/
def shares_of (alloc_cash buy_px : ℚ) : ℚ :=
  max 1 ((⌊alloc_cash / buy_px⌋ : ℤ) : ℚ)

/-- Embedding of one iteration of the per-dividend-event loop of
`simulate_rotation` (source lines 375-407): window filter, buy/sell date
shifts against the instrument's own price calendar, price lookups,
allocation, the skip guards, and the cash/trade/equity update. -/
def process_event (start_d end_d hold_pre hold_post : ℤ)
    (alloc_per_event : ℚ) (topk : ℤ) (ticker : String)
    (px : List (ℤ × ℚ)) (st : SimState) (ev : ℤ × ℚ) : SimState :=
  if ¬ (start_d ≤ ev.1 ∧ ev.1 ≤ end_d) then st
  else
    match shift_trading_day_with_calendar ev.1 (-hold_pre) (px.map Prod.fst),
        shift_trading_day_with_calendar ev.1 hold_post (px.map Prod.fst) with
    | some buy_d, some sell_d =>
      match lookup_adjusted_close px buy_d, lookup_adjusted_close px sell_d with
      | some buy_px, some sell_px =>
        let alloc_cash := alloc_cash_of st.cash alloc_per_event topk
        if alloc_cash ≤ 0 then st
        else
          let shares := shares_of alloc_cash buy_px
          let cost := shares * buy_px
          if cost ≤ 0 ∨ st.cash * (98/100) < cost then st
          else
            let div_cash := ev.2 * shares
            let proceeds := shares * sell_px
            { cash := (st.cash - cost) + (proceeds + div_cash),
              trades := st.trades ++
                [{ ticker := ticker, ex_date := ev.1, buy_date := buy_d,
                   sell_date := sell_d, buy_price := buy_px,
                   sell_price := sell_px, shares := shares,
                   dividend_cash := div_cash,
                   pnl := (proceeds + div_cash) - cost }],
              equity_curve := st.equity_curve
                ++ [(sell_d, (st.cash - cost) + (proceeds + div_cash))] }
      | _, _ => st
    | _, _ => st

/-- One instrument of the simulator: its ticker, realized dividend events
(ex-date, amount) and its EOD price series (date, adjusted close). -/
structure Instrument where
  ticker : String
  divs : List (ℤ × ℚ)
  px : List (ℤ × ℚ)
deriving Repr, DecidableEq, Inhabited

/-- Per-instrument body of `simulate_rotation`: skip instruments without
dividend history or with fewer than 10 price rows, otherwise fold the event
loop over the dividend events. -/
def process_instrument (start_d end_d hold_pre hold_post : ℤ)
    (alloc_per_event : ℚ) (topk : ℤ) (st : SimState) (ins : Instrument) :
    SimState :=
  if ins.divs = [] then st
  else if ins.px.length < 10 then st
  else ins.divs.foldl
    (process_event start_d end_d hold_pre hold_post alloc_per_event topk
      ins.ticker ins.px) st

/-- Embedding of `simulate_rotation`: fold the instrument loop over the
ranked instruments starting from the initial cash. -/
def simulate_rotation (ranked : List Instrument) (start_d end_d : ℤ)
    (initial_cash : ℚ) (hold_pre hold_post : ℤ) (alloc_per_event : ℚ)
    (topk : ℤ) : SimState :=
  ranked.foldl
    (process_instrument start_d end_d hold_pre hold_post alloc_per_event topk)
    { cash := initial_cash, trades := [], equity_curve := [] }

/-- Invariant carried through the simulation: non-negative cash and
non-negative equity-curve values. -/
def GoodState (st : SimState) : Prop :=
  0 ≤ st.cash ∧ ∀ q ∈ st.equity_curve, 0 ≤ q.2

theorem lookup_adjusted_close_nonneg {px : List (ℤ × ℚ)}
    (hpx : ∀ p ∈ px, 0 ≤ p.2) {d : ℤ} {v : ℚ}
    (h : lookup_adjusted_close px d = some v) : 0 ≤ v := by
  unfold lookup_adjusted_close at h
  cases hl : (px.filter (fun p => p.1 = d)).getLast? with
  | none => rw [hl] at h; simp at h
  | some p =>
    rw [hl] at h
    obtain rfl : p.2 = v := by simpa using h
    exact hpx p ((List.mem_filter.mp (mem_of_getLast?_eq_some hl)).1)

theorem shares_of_pos (alloc_cash buy_px : ℚ) : 0 < shares_of alloc_cash buy_px :=
  lt_of_lt_of_le one_pos (le_max_left _ _)

theorem process_event_good {start_d end_d hold_pre hold_post : ℤ}
    {alloc_per_event : ℚ} {topk : ℤ} {ticker : String} {px : List (ℤ × ℚ)}
    {st : SimState} {ev : ℤ × ℚ}
    (hpx : ∀ p ∈ px, 0 ≤ p.2) (hamt : 0 ≤ ev.2) (hst : GoodState st) :
    GoodState (process_event start_d end_d hold_pre hold_post alloc_per_event
      topk ticker px st ev) := by
  simp only [process_event]
  split
  · exact hst
  · split
    · rename_i bd sd heqb heqs
      split
      · rename_i bp sp hbp hsp
        split
        · exact hst
        · split
          · exact hst
          · rename_i hcost
            push_neg at hcost
            obtain ⟨hc1, hc2⟩ := hcost
            have hsell : 0 ≤ sp := lookup_adjusted_close_nonneg hpx hsp
            have hsh : (0 : ℚ) ≤ shares_of (alloc_cash_of st.cash alloc_per_event topk) bp :=
              (shares_of_pos _ _).le
            have hpr : 0 ≤ shares_of (alloc_cash_of st.cash alloc_per_event topk) bp * sp :=
              mul_nonneg hsh hsell
            have hdc : 0 ≤ ev.2 * shares_of (alloc_cash_of st.cash alloc_per_event topk) bp :=
              mul_nonneg hamt hsh
            have hcash2 : 0 ≤ (st.cash
                - shares_of (alloc_cash_of st.cash alloc_per_event topk) bp * bp)
                + (shares_of (alloc_cash_of st.cash alloc_per_event topk) bp * sp
                  + ev.2 * shares_of (alloc_cash_of st.cash alloc_per_event topk) bp) := by
              have h0 : 0 ≤ st.cash := hst.1
              linarith
            refine ⟨hcash2, ?_⟩
            intro q hq
            rcases List.mem_append.mp hq with h1 | h1
            · exact hst.2 q h1
            · simp only [List.mem_singleton] at h1
              subst h1
              exact hcash2
      · exact hst
    · exact hst

theorem foldl_preserve {α σ : Type} {P : σ → Prop} {f : σ → α → σ}
    {l : List α} (hf : ∀ s a, a ∈ l → P s → P (f s a)) {s : σ} (hs : P s) :
    P (l.foldl f s) := by
  induction l generalizing s with
  | nil => exact hs
  | cons x xs ih =>
    exact ih (fun s a ha hs2 => hf s a (List.mem_cons_of_mem x ha) hs2)
      (hf s x (List.mem_cons_self x xs) hs)

theorem process_instrument_good {start_d end_d hold_pre hold_post : ℤ}
    {alloc_per_event : ℚ} {topk : ℤ} {st : SimState} {ins : Instrument}
    (hpx : ∀ p ∈ ins.px, 0 ≤ p.2) (hdiv : ∀ dv ∈ ins.divs, 0 ≤ dv.2)
    (hst : GoodState st) :
    GoodState (process_instrument start_d end_d hold_pre hold_post
      alloc_per_event topk st ins) := by
  unfold process_instrument
  split
  · exact hst
  split
  · exact hst
  exact foldl_preserve
    (fun s ev hev hs => process_event_good hpx (hdiv ev hev) hs) hst

theorem process_event_trade_bound {start_d end_d hold_pre hold_post : ℤ}
    {alloc_per_event : ℚ} {topk : ℤ} {ticker : String} {px : List (ℤ × ℚ)}
    {st : SimState} {ev : ℤ × ℚ} (_hst : 0 ≤ st.cash) (t : Trade)
    (h : (process_event start_d end_d hold_pre hold_post alloc_per_event
        topk ticker px st ev).trades = st.trades ++ [t]) :
    t.shares * t.buy_price ≤ st.cash := by
  simp only [process_event] at h
  split at h
  · exact absurd h (by simp)
  · split at h
    · rename_i bd sd heqb heqs
      split at h
      · rename_i bp sp hbp hsp
        split at h
        · exact absurd h (by simp)
        · split at h
          · exact absurd h (by simp)
          · rename_i hcost
            push_neg at hcost
            have ht : t =
                { ticker := ticker, ex_date := ev.1, buy_date := bd,
                  sell_date := sd, buy_price := bp, sell_price := sp,
                  shares := shares_of (alloc_cash_of st.cash alloc_per_event topk) bp,
                  dividend_cash := ev.2 * shares_of (alloc_cash_of st.cash alloc_per_event topk) bp,
                  pnl := (shares_of (alloc_cash_of st.cash alloc_per_event topk) bp * sp
                    + ev.2 * shares_of (alloc_cash_of st.cash alloc_per_event topk) bp)
                    - shares_of (alloc_cash_of st.cash alloc_per_event topk) bp * bp } := by
              have h2 := List.append_cancel_left h.symm
              simpa using h2
            subst ht
            have h98 := hcost.2
            dsimp only
            linarith
      · exact absurd h (by simp)
    · exact absurd h (by simp)

/-- C2: with non-negative initial cash, non-negative prices and non-negative
dividend amounts, the simulator's final cash and every equity-curve point
are non-negative, and any emitted trade costs at most the cash held
immediately before the purchase (the `cost > cash * 0.98` guard). -/
theorem c2_no_borrowing_nonneg_cash
    (ranked : List Instrument) (start_d end_d hold_pre hold_post : ℤ)
    (initial_cash alloc_per_event : ℚ) (topk : ℤ)
    (hcash : 0 ≤ initial_cash)
    (hpx : ∀ ins ∈ ranked, ∀ p ∈ ins.px, 0 ≤ p.2)
    (hdiv : ∀ ins ∈ ranked, ∀ dv ∈ ins.divs, 0 ≤ dv.2) :
    (0 ≤ (simulate_rotation ranked start_d end_d initial_cash hold_pre
        hold_post alloc_per_event topk).cash
      ∧ ∀ q ∈ (simulate_rotation ranked start_d end_d initial_cash hold_pre
          hold_post alloc_per_event topk).equity_curve, 0 ≤ q.2)
    ∧ ∀ (st : SimState) (ticker : String) (px : List (ℤ × ℚ)) (ev : ℤ × ℚ),
        0 ≤ st.cash →
        ∀ t, (process_event start_d end_d hold_pre hold_post alloc_per_event
            topk ticker px st ev).trades = st.trades ++ [t] →
          t.shares * t.buy_price ≤ st.cash := by
  constructor
  · have hgood : GoodState (simulate_rotation ranked start_d end_d initial_cash
        hold_pre hold_post alloc_per_event topk) := by
      unfold simulate_rotation
      exact foldl_preserve
        (fun s ins hins hs =>
          process_instrument_good (hpx ins hins) (hdiv ins hins) hs)
        ⟨hcash, by intro q hq; simp at hq⟩
    exact hgood
  · intro st ticker px ev hstc t ht
    exact process_event_trade_bound hstc t ht

/-- Price series with ten rows at price 50, used by the C2 witness. -/
def c2_px : List (ℤ × ℚ) :=
  [(0, 50), (1, 50), (2, 50), (3, 50), (4, 50),
   (5, 50), (6, 50), (7, 50), (8, 50), (9, 50)]

/-- Instrument with one dividend event, used by the C2 witness. -/
def c2_ins : Instrument :=
  { ticker := "SCHD.US", divs := [(5, 1)], px := c2_px }

/-- Witness for C2 on a one-instrument backtest. -/
theorem c2_no_borrowing_nonneg_cash_witness :
    0 ≤ (simulate_rotation [c2_ins] 0 9 100000 2 1 (33/100) 10).cash :=
  (c2_no_borrowing_nonneg_cash [c2_ins] 0 9 2 1 100000 (33/100) 10
    (by norm_num)
    (by intro ins hins p hp; fin_cases hins; fin_cases hp <;> norm_num)
    (by intro ins hins dv hdv; fin_cases hins; fin_cases hdv; norm_num)).1.1

/-- Price series with ten rows at price 5000, used for C3. -/
def c3_px : List (ℤ × ℚ) :=
  [(0, 5000), (1, 5000), (2, 5000), (3, 5000), (4, 5000),
   (5, 5000), (6, 5000), (7, 5000), (8, 5000), (9, 5000)]

/-- Instrument whose single event allocates less than one share's price. -/
def c3_ins : Instrument :=
  { ticker := "SCHD.US", divs := [(0, 0)], px := c3_px }

/-- C3 as stated is false: with cash 100000, `alloc_per_event = 0.33`,
`topk = 10` and buy price 5000 the allocation floor is
`floor(3300 / 5000) = 0 < 1`, yet the event is NOT skipped: the code takes
`max(1.0, floor(...))` and buys one share. -/
theorem c3_counterexample :
    (⌊((100000 : ℚ) * (33/100) / (((max 1 (10 : ℤ) : ℤ)) : ℚ)) / 5000⌋ : ℤ) = 0
    ∧ ((simulate_rotation [c3_ins] 0 9 100000 0 0 (33/100) 10).trades.map
        (fun t => t.shares)) = [1] := by
  constructor
  · norm_num
  · have hb : shift_trading_day_with_calendar 0 (-0) (c3_px.map Prod.fst)
        = some 0 := by decide
    have hb2 : shift_trading_day_with_calendar 0 0 (c3_px.map Prod.fst)
        = some 0 := by decide
    have hsp : lookup_adjusted_close c3_px 0 = some 5000 := by
      simp [lookup_adjusted_close, c3_px]
    have hrun : simulate_rotation [c3_ins] 0 9 100000 0 0 (33/100) 10
        = process_event 0 9 0 0 (33/100) 10 "SCHD.US" c3_px
            { cash := 100000, trades := [], equity_curve := [] } (0, 0) := by
      simp [simulate_rotation, process_instrument, c3_ins, c3_px]
    rw [hrun]
    simp only [process_event, hb, hb2, hsp]
    norm_num [alloc_cash_of, shares_of, max_def]

/-- C3 amended: once dates and prices resolve, the simulator buys
`shares = max(1, floor(alloc_cash / buy_price))` shares with
`alloc_cash = max(0, cash * alloc_per_event / max(1, topk))`, and the event
is skipped (state unchanged) exactly when `alloc_cash ≤ 0`, `cost ≤ 0` or
`cost > 98%` of current cash — a floor below one alone does not skip the
event, it is rounded up to one share. -/
theorem c3_shares_and_skip_rule (start_d end_d hold_pre hold_post : ℤ)
    (alloc_per_event : ℚ) (topk : ℤ) (ticker : String) (px : List (ℤ × ℚ))
    (st : SimState) (ev : ℤ × ℚ) (bd sd : ℤ) (bp sp : ℚ)
    (hin : start_d ≤ ev.1 ∧ ev.1 ≤ end_d)
    (hb : shift_trading_day_with_calendar ev.1 (-hold_pre) (px.map Prod.fst)
      = some bd)
    (hs : shift_trading_day_with_calendar ev.1 hold_post (px.map Prod.fst)
      = some sd)
    (hbp : lookup_adjusted_close px bd = some bp)
    (hsp : lookup_adjusted_close px sd = some sp) :
    ((alloc_cash_of st.cash alloc_per_event topk ≤ 0
        ∨ shares_of (alloc_cash_of st.cash alloc_per_event topk) bp * bp ≤ 0
        ∨ st.cash * (98/100)
            < shares_of (alloc_cash_of st.cash alloc_per_event topk) bp * bp) →
      process_event start_d end_d hold_pre hold_post alloc_per_event topk
        ticker px st ev = st)
    ∧ (0 < alloc_cash_of st.cash alloc_per_event topk →
       0 < shares_of (alloc_cash_of st.cash alloc_per_event topk) bp * bp →
       shares_of (alloc_cash_of st.cash alloc_per_event topk) bp * bp
         ≤ st.cash * (98/100) →
      (process_event start_d end_d hold_pre hold_post alloc_per_event topk
          ticker px st ev).trades
        = st.trades ++
          [{ ticker := ticker, ex_date := ev.1, buy_date := bd,
             sell_date := sd, buy_price := bp, sell_price := sp,
             shares := shares_of (alloc_cash_of st.cash alloc_per_event topk) bp,
             dividend_cash :=
               ev.2 * shares_of (alloc_cash_of st.cash alloc_per_event topk) bp,
             pnl := (shares_of (alloc_cash_of st.cash alloc_per_event topk) bp * sp
               + ev.2 * shares_of (alloc_cash_of st.cash alloc_per_event topk) bp)
               - shares_of (alloc_cash_of st.cash alloc_per_event topk) bp * bp }]) := by
  constructor
  · intro hskip
    simp only [process_event, hb, hs, hbp, hsp, if_neg (not_not_intro hin)]
    by_cases ha : alloc_cash_of st.cash alloc_per_event topk ≤ 0
    · rw [if_pos ha]
    · rw [if_neg ha]
      rcases hskip with h1 | h23
      · exact absurd h1 ha
      · rw [if_pos h23]
  · intro h1 h2 h3
    simp only [process_event, hb, hs, hbp, hsp, if_neg (not_not_intro hin)]
    rw [if_neg (not_le.mpr h1), if_neg (by push_neg; exact ⟨h2, h3⟩)]

/-- Witness for C3 amended at the concrete C3 instrument: one share is
bought even though the allocation floor is zero. -/
theorem c3_shares_and_skip_rule_witness :
    (process_event 0 9 0 0 (33/100) 10 "SCHD.US" c3_px
        { cash := 100000, trades := [], equity_curve := [] } (0, 0)).trades
      = [{ ticker := "SCHD.US", ex_date := 0, buy_date := 0, sell_date := 0,
           buy_price := 5000, sell_price := 5000, shares := 1,
           dividend_cash := 0, pnl := 0 }] := by
  have h := (c3_shares_and_skip_rule 0 9 0 0 (33/100) 10 "SCHD.US" c3_px
    { cash := 100000, trades := [], equity_curve := [] } (0, 0) 0 0 5000 5000
    (by norm_num) (by decide) (by decide)
    (by simp [lookup_adjusted_close, c3_px])
    (by simp [lookup_adjusted_close, c3_px])).2
    (by norm_num [alloc_cash_of, max_def])
    (by norm_num [alloc_cash_of, shares_of, max_def])
    (by norm_num [alloc_cash_of, shares_of, max_def])
  rw [h]
  norm_num [alloc_cash_of, shares_of, max_def]

/-! ## Screener fallback and scoring outcome (`screener_etfs`,
source lines 141-177, and the empty-universe guard of
`build_scored_candidates`, source lines 267-269) -/

/-- One row returned by the EODHD screener (the fields the script keeps). -/
structure EtfRow where
  code : String
  exchange : String
  name : String
  avgvol : ℚ
  dividend_yield : ℚ
  close : ℚ
  change_p : ℚ
deriving Repr, DecidableEq, Inhabited

/-- Result of one gateway call after the retry budget: either parsed data
or a terminal failure. -/
inductive GatewayResult (α : Type) where
  | ok (data : α)
  | failed
deriving Repr, DecidableEq

/-- The hardcoded fallback demo ETFs of `screener_etfs` (source lines
156-165). -/
def fallback_etfs : List EtfRow :=
  [{ code := "SCHD", exchange := "US", name := "Schwab US Dividend Equity ETF",
     avgvol := 3500000, dividend_yield := 38/1000, close := 94, change_p := 5/10 },
   { code := "VYM", exchange := "US", name := "Vanguard High Dividend Yield ETF",
     avgvol := 1800000, dividend_yield := 32/1000, close := 120, change_p := 3/10 },
   { code := "HDV", exchange := "US", name := "iShares Core High Dividend ETF",
     avgvol := 950000, dividend_yield := 35/1000, close := 110, change_p := 4/10 },
   { code := "DGRO", exchange := "US", name := "iShares Core Dividend Growth ETF",
     avgvol := 2100000, dividend_yield := 25/1000, close := 63, change_p := 2/10 },
   { code := "NOBL", exchange := "US",
     name := "ProShares Dividend Aristocrats ETF",
     avgvol := 850000, dividend_yield := 27/1000, close := 96, change_p := 25/100 },
   { code := "SDIV", exchange := "US", name := "Global X SuperDividend US ETF",
     avgvol := 650000, dividend_yield := 89/1000, close := 29/2, change_p := 6/10 },
   { code := "JEPI", exchange := "US",
     name := "Janus Henderson Equity Premium Income ETF",
     avgvol := 5200000, dividend_yield := 72/1000, close := 58, change_p := 5/10 },
   { code := "XYLD", exchange := "US",
     name := "Global X SP500 Covered Call ETF",
     avgvol := 3800000, dividend_yield := 83/1000, close := 43, change_p := 55/100 }]

/-- Embedding of `screener_etfs`: on gateway success the parsed rows are
used; on failure the hardcoded fallback list is filtered by the yield and
volume thresholds and used instead (a warning is logged, no error raised). -/
def screener_etfs (resp : GatewayResult (List EtfRow))
    (min_div min_avgvol : ℚ) : List EtfRow :=
  match resp with
  | .ok data => data
  | .failed => fallback_etfs.filter
      (fun d => decide (min_div ≤ d.dividend_yield)
        && decide (min_avgvol ≤ d.avgvol))

/-- Embedding of the screening-plus-scoring step of
`build_scored_candidates`: the screener result is converted to candidates
(merging the next ex-date per ticker) and scored; an empty screener result
raises, embedded as `Except.error`. -/
def build_scored_candidates_run (resp : GatewayResult (List EtfRow))
    (min_div min_avgvol : ℚ) (next_ex : String → Option ℤ)
    (today ex_lookahead_days : ℤ) (wY wL wS : ℚ) (topk : ℕ) :
    Except String (List ScoredRow) :=
  let base := screener_etfs resp min_div min_avgvol
  if base = [] then Except.error "筛选结果为空。"
  else Except.ok (build_scored_candidates today ex_lookahead_days wY wL wS topk
    (base.map (fun r =>
      { ticker := r.code ++ "." ++ r.exchange,
        dividend_yield := r.dividend_yield, avgvol := r.avgvol,
        ex_date := next_ex (r.code ++ "." ++ r.exchange) })))

/-- C7 as stated is false: with the gateway unreachable and the default
thresholds (min yield 0.009, min volume 200000) the screener substitutes all
8 hardcoded fallback ETFs and the scoring step completes with `ok`, instead
of aborting with a propagated error. -/
theorem c7_counterexample :
    (screener_etfs .failed (9/1000) 200000).length = 8
    ∧ (build_scored_candidates_run .failed (9/1000) 200000 (fun _ => none)
        0 90 (2/5) (1/4) (7/20) 10).isOk = true := by
  constructor
  · norm_num [screener_etfs, fallback_etfs]
  · have hbase : screener_etfs .failed (9/1000) 200000 ≠ [] := by
      apply List.ne_nil_of_length_pos
      norm_num [screener_etfs, fallback_etfs]
    simp only [build_scored_candidates_run]
    rw [if_neg hbase]
    rfl

/-- C7 amended: when the gateway is unreachable after the retry budget, the
scoring step does not abort — the screener silently substitutes the
hardcoded fallback ETFs filtered by the thresholds and scoring completes on
that data; the run errors only when the filtered fallback set is empty. -/
theorem c7_screener_fallback (min_div min_avgvol : ℚ)
    (next_ex : String → Option ℤ) (today ex_lookahead_days : ℤ)
    (wY wL wS : ℚ) (topk : ℕ) :
    (fallback_etfs.filter (fun d => decide (min_div ≤ d.dividend_yield)
        && decide (min_avgvol ≤ d.avgvol)) ≠ [] →
      (build_scored_candidates_run .failed min_div min_avgvol next_ex today
        ex_lookahead_days wY wL wS topk).isOk = true)
    ∧ (fallback_etfs.filter (fun d => decide (min_div ≤ d.dividend_yield)
        && decide (min_avgvol ≤ d.avgvol)) = [] →
      build_scored_candidates_run .failed min_div min_avgvol next_ex today
        ex_lookahead_days wY wL wS topk = Except.error "筛选结果为空。") := by
  constructor
  · intro hne
    have hbase : screener_etfs .failed min_div min_avgvol ≠ [] := by
      simpa [screener_etfs] using hne
    simp only [build_scored_candidates_run]
    rw [if_neg hbase]
    rfl
  · intro he
    have hbase : screener_etfs .failed min_div min_avgvol = [] := by
      simpa [screener_etfs] using he
    simp only [build_scored_candidates_run]
    rw [if_pos hbase]

/-- Witness for C7 amended at the default CLI thresholds. -/
theorem c7_screener_fallback_witness :
    (build_scored_candidates_run .failed (9/1000) 200000 (fun _ => none)
      0 90 (2/5) (1/4) (7/20) 10).isOk = true :=
  (c7_screener_fallback (9/1000) 200000 (fun _ => none) 0 90
    (2/5) (1/4) (7/20) 10).1 (by
      apply List.ne_nil_of_length_pos
      norm_num [fallback_etfs])

/-! ## HTTP retry loop (`_get`, source lines 63-99) -/

/-- What the network returns for one attempt: a parsed body, a 429
rate-limit response, or a transport/parse error (`RequestException` or
`ValueError`), abstracted over payloads. -/
inductive HttpResp where
  | success (v : ℕ)
  | rateLimited
  | failure (e : ℕ)
deriving Repr, DecidableEq

/-- Observable outcome of `_get`: a parsed body, a re-raised
transport/parse error, or the `RuntimeError("Unreachable")` after the loop
exhausts all six attempts on rate limits. -/
inductive GetOutcome where
  | ok (v : ℕ)
  | raised (e : ℕ)
  | unreachable
deriving Repr, DecidableEq

/-- One iteration of the `for attempt in range(6)` loop of `_get`:
`fuel` counts the remaining attempts including the current one; a 429
consumes the attempt and retries; an error retries unless this is the last
attempt (`attempt == 5`), in which case it is re-raised; falling out of the
loop yields the terminal `RuntimeError`. -/
def get_loop (resp : ℕ → HttpResp) (attempt : ℕ) : ℕ → GetOutcome
  | 0 => .unreachable
  | fuel + 1 =>
    match resp attempt with
    | .success v => .ok v
    | .rateLimited => get_loop resp (attempt + 1) fuel
    | .failure e => if fuel = 0 then .raised e else get_loop resp (attempt + 1) fuel

/-- Embedding of `_get`: six attempts starting at attempt 0. -/
def _get (resp : ℕ → HttpResp) : GetOutcome := get_loop resp 0 6

theorem get_loop_congr (resp resp' : ℕ → HttpResp) :
    ∀ fuel attempt, (∀ i, attempt ≤ i → i < attempt + fuel → resp i = resp' i) →
      get_loop resp attempt fuel = get_loop resp' attempt fuel := by
  intro fuel
  induction fuel with
  | zero => intro attempt h; rfl
  | succ n ih =>
    intro attempt h
    have h0 : resp attempt = resp' attempt := h attempt (le_refl _) (by omega)
    simp only [get_loop, h0]
    cases hr : resp' attempt with
    | success v => rfl
    | rateLimited => exact ih (attempt + 1) (fun i h1 h2 => h i (by omega) (by omega))
    | failure e =>
      show (if n = 0 then GetOutcome.raised e else get_loop resp (attempt + 1) n)
        = if n = 0 then GetOutcome.raised e else get_loop resp' (attempt + 1) n
      by_cases hn : n = 0
      · rw [if_pos hn, if_pos hn]
      · rw [if_neg hn, if_neg hn]
        exact ih (attempt + 1) (fun i h1 h2 => h i (by omega) (by omega))

theorem get_loop_all_rate_limited (resp : ℕ → HttpResp) :
    ∀ fuel attempt, (∀ i, attempt ≤ i → i < attempt + fuel →
        resp i = .rateLimited) →
      get_loop resp attempt fuel = .unreachable := by
  intro fuel
  induction fuel with
  | zero => intro attempt h; rfl
  | succ n ih =>
    intro attempt h
    have h0 : resp attempt = .rateLimited := h attempt (le_refl _) (by omega)
    simp only [get_loop, h0]
    exact ih (attempt + 1) (fun i h1 h2 => h i (by omega) (by omega))

theorem get_loop_all_failure (resp : ℕ → HttpResp) (e : ℕ → ℕ) :
    ∀ fuel attempt, 0 < fuel →
      (∀ i, attempt ≤ i → i < attempt + fuel → resp i = .failure (e i)) →
      get_loop resp attempt fuel = .raised (e (attempt + fuel - 1)) := by
  intro fuel
  induction fuel with
  | zero => intro attempt h; omega
  | succ n ih =>
    intro attempt _ h
    have h0 : resp attempt = .failure (e attempt) := h attempt (le_refl _) (by omega)
    simp only [get_loop, h0]
    by_cases hn : n = 0
    · subst hn
      simp
    · rw [if_neg hn]
      have hrec := ih (attempt + 1) (by omega)
        (fun i h1 h2 => h i (by omega) (by omega))
      rw [hrec, show attempt + 1 + n - 1 = attempt + (n + 1) - 1 from by omega]

/-- C10: the retry loop of `_get` makes at most six attempts (its outcome
depends only on the first six responses) and always terminates; an
immediate success returns the parsed body, six straight transport/parse
errors re-raise the final error, and six straight 429 responses end in the
terminal `RuntimeError` rather than looping forever. -/
theorem c10_get_retry_budget (resp resp' : ℕ → HttpResp) :
    ((∀ i, i < 6 → resp i = resp' i) → _get resp = _get resp')
    ∧ (∀ v, resp 0 = .success v → _get resp = .ok v)
    ∧ (∀ e : ℕ → ℕ, (∀ i, i < 6 → resp i = .failure (e i)) →
        _get resp = .raised (e 5))
    ∧ ((∀ i, i < 6 → resp i = .rateLimited) → _get resp = .unreachable) := by
  refine ⟨?_, ?_, ?_, ?_⟩
  · intro h
    exact get_loop_congr resp resp' 6 0 (fun i h1 h2 => h i (by omega))
  · intro v hv
    unfold _get get_loop
    rw [hv]
  · intro e he
    have := get_loop_all_failure resp e 6 0 (by omega)
      (fun i h1 h2 => he i (by omega))
    simpa using this
  · intro h
    exact get_loop_all_rate_limited resp 6 0 (fun i h1 h2 => h i (by omega))

/-- Witness for C10: all-429 schedules end in the terminal error, an
immediate success returns the body, and the outcome ignores responses
beyond the sixth attempt. -/
theorem c10_get_retry_budget_witness :
    _get (fun _ => HttpResp.rateLimited) = GetOutcome.unreachable
    ∧ _get (fun i => if i = 0 then HttpResp.success 7 else HttpResp.rateLimited)
        = GetOutcome.ok 7
    ∧ _get (fun i => if i < 6 then HttpResp.rateLimited else HttpResp.success 9)
        = _get (fun _ => HttpResp.rateLimited) :=
  ⟨(c10_get_retry_budget (fun _ => HttpResp.rateLimited)
      (fun _ => HttpResp.rateLimited)).2.2.2 (fun i _ => rfl),
   (c10_get_retry_budget
      (fun i => if i = 0 then HttpResp.success 7 else HttpResp.rateLimited)
      (fun _ => HttpResp.rateLimited)).2.1 7 rfl,
   (c10_get_retry_budget
      (fun i => if i < 6 then HttpResp.rateLimited else HttpResp.success 9)
      (fun _ => HttpResp.rateLimited)).1
     (fun i hi => by rw [if_pos hi])⟩

end DivRotation
